import Mathlib

/-
Verification of the map-making core of `stripeline` (file
`src/stripeline/maptools.py`) against its natural-language specification.

Shallow embedding conventions:
* Sample signals are rationals (`ℚ`); exact arithmetic stands in for the
  source's floating point.
* A numpy array of per-pixel values is embedded as a function `ℕ → ℚ`
  (resp. `ℕ → ℕ` for hit counts, `ℕ → Bool` for boolean masks); indexed
  writes become `Function.update`.  The theorems only inspect indices
  below `numpix`, matching the fixed array size of the source.
* The `num_of_pixels` argument is a Python-level integer object: it carries
  both its value and whether it is an instance of the built-in `int` type
  (a numpy integer such as `numpy.int64` is not).
* Python `assert` failures and numpy `IndexError`s become explicit outcome
  constructors; the `indexFail` constructor carries the local accumulation
  state at the moment the error is raised, so that theorems can talk about
  partial accumulation performed before a failure.
-/

/-- A Python integer-like argument: its value together with whether it is an
instance of the built-in `int` type (`isinstance(x, int)`). -/
structure PyInt where
  val : Int
  isInt : Bool
deriving DecidableEq, Repr

/-- Numpy indexing into a 1-d array of length `n` with a (possibly negative)
index: `0 ≤ i < n` addresses cell `i`, `-n ≤ i < 0` wraps to cell `n + i`,
anything else raises `IndexError` (encoded as `none`). -/
def npEffIndex (n : ℕ) (i : ℤ) : Option ℕ :=
  if 0 ≤ i ∧ i < (n : ℤ) then some i.toNat
  else if -(n : ℤ) ≤ i ∧ i < 0 then some (i + n).toNat
  else none

/-- Outcome of a call to `nonoise_map` (src/stripeline/maptools.py, lines
79-105).  `assertFail` is an `AssertionError` from one of the three `assert`
statements, raised before the map arrays are allocated; `indexFail` is a numpy
`IndexError` raised in the middle of the accumulation loop, carrying the
`mappixels` and `observed` arrays as they stand at that moment. -/
inductive NonoiseOutcome where
  | assertFail : NonoiseOutcome
  | indexFail (mapAtFailure : ℕ → ℚ) (obsAtFailure : ℕ → Bool) : NonoiseOutcome
  | ok (resultMap : ℕ → ℚ) : NonoiseOutcome

/-- Is the outcome a mid-loop `IndexError`? -/
def NonoiseOutcome.isIndexFail : NonoiseOutcome → Bool
  | .indexFail _ _ => true
  | _ => false

/-- Is the outcome a successful return? -/
def NonoiseOutcome.isOk : NonoiseOutcome → Bool
  | .ok _ => true
  | _ => false

/-- The `mappixels` array at the moment an `IndexError` was raised
(zero map for the other outcomes). -/
def NonoiseOutcome.stateAtFailure : NonoiseOutcome → (ℕ → ℚ)
  | .indexFail m _ => m
  | _ => fun _ => 0

/-- The returned map of a successful call (zero map otherwise). -/
def NonoiseOutcome.okMap : NonoiseOutcome → (ℕ → ℚ)
  | .ok m => m
  | _ => fun _ => 0

/-- The accumulation loop of `nonoise_map` (lines 99-104 of
src/stripeline/maptools.py): for each sample in order, look up
`observed[cur_pixidx]` (numpy indexing, which may raise `IndexError`); if the
pixel is unseen, write the signal into `mappixels` and mark it observed. -/
def nonoiseLoop (n : ℕ) : List (ℚ × ℤ) → (ℕ → ℚ) → (ℕ → Bool) → NonoiseOutcome
  | [], m, _ => .ok m
  | (v, i) :: rest, m, obs =>
    match npEffIndex n i with
    | none => .indexFail m obs
    | some j =>
      if obs j then nonoiseLoop n rest m obs
      else nonoiseLoop n rest (Function.update m j v) (Function.update obs j true)

/-- `nonoise_map(signal, pixidx, num_of_pixels)` from
src/stripeline/maptools.py lines 79-105: three `assert` statements (equal
lengths, `isinstance(num_of_pixels, int)`, `num_of_pixels > 0`), then the
first-hit accumulation loop over zero-initialised arrays. -/
def nonoise_map (signal : List ℚ) (pixidx : List ℤ) (num : PyInt) :
    NonoiseOutcome :=
  if signal.length = pixidx.length ∧ num.isInt = true ∧ 0 < num.val then
    nonoiseLoop num.val.toNat (signal.zip pixidx) (fun _ => 0) (fun _ => false)
  else .assertFail

/-- One streaming step of the running-mean accumulator.  Modelled from the
spec: the C extension `stripeline._maptools.binned_map` is not under src/;
per the spec, for each sample it adds the signal to the pixel's running sum
and increments its hit count.  The spec fixes the behavior only for pixel
indices in `[0, numpix)`; out-of-range samples are ignored by the model and
are never exercised by the theorems below. -/
def stepB (n : ℕ) (st : (ℕ → ℚ) × (ℕ → ℕ)) (s : ℚ × ℤ) : (ℕ → ℚ) × (ℕ → ℕ) :=
  if 0 ≤ s.2 ∧ s.2 < (n : ℤ) then
    (Function.update st.1 s.2.toNat (st.1 s.2.toNat + s.1),
     Function.update st.2 s.2.toNat (st.2 s.2.toNat + 1))
  else st

/-- Modelled from the spec: running sums and hit counts of the running-mean
accumulator (`stripeline._maptools.binned_map`, not under src/) after folding
the sample stream left to right. -/
def binnedAccum (n : ℕ) (samples : List (ℚ × ℤ)) : (ℕ → ℚ) × (ℕ → ℕ) :=
  samples.foldl (stepB n) (fun _ => 0, fun _ => 0)

/-- Modelled from the spec: report the mean (sum divided by hit count) on
pixels with hits > 0 and the sentinel 0 elsewhere. -/
def binnedFinal (sums : ℕ → ℚ) (hits : ℕ → ℕ) : ℕ → ℚ :=
  fun p => if 0 < hits p then sums p / (hits p : ℚ) else 0

/-- The running-mean (binned) map of a sample stream: value map and hit map. -/
def binnedOfSamples (n : ℕ) (samples : List (ℚ × ℤ)) : (ℕ → ℚ) × (ℕ → ℕ) :=
  (binnedFinal (binnedAccum n samples).1 (binnedAccum n samples).2,
   (binnedAccum n samples).2)

/-- Outcome of a call to the Python wrapper `binned_map`
(src/stripeline/maptools.py lines 108-152). -/
inductive BinnedOutcome where
  | assertFail : BinnedOutcome
  | ok (valueMap : ℕ → ℚ) (hitMap : ℕ → ℕ) : BinnedOutcome

/-- Is the outcome a successful return? -/
def BinnedOutcome.isOk : BinnedOutcome → Bool
  | .ok _ _ => true
  | _ => false

/-- Value map of a successful call (zero map otherwise). -/
def BinnedOutcome.valueMap : BinnedOutcome → (ℕ → ℚ)
  | .ok v _ => v
  | _ => fun _ => 0

/-- Hit map of a successful call (zero map otherwise). -/
def BinnedOutcome.hitMap : BinnedOutcome → (ℕ → ℕ)
  | .ok _ h => h
  | _ => fun _ => 0

/-- `binned_map(signal, pixidx, num_of_pixels)` from
src/stripeline/maptools.py lines 108-152: the same three `assert` statements
as `nonoise_map`, then the running-mean accumulation (delegated by the source
to the C extension, modelled from the spec by `binnedOfSamples`). -/
def binned_map (signal : List ℚ) (pixidx : List ℤ) (num : PyInt) :
    BinnedOutcome :=
  if signal.length = pixidx.length ∧ num.isInt = true ∧ 0 < num.val then
    .ok (binnedOfSamples num.val.toNat (signal.zip pixidx)).1
      (binnedOfSamples num.val.toNat (signal.zip pixidx)).2
  else .assertFail

/-- The MPI reduction of `binned_map_strip` (src/stripeline/maptools.py lines
195-208) applied to the (value map, hit map) pairs of K workers, with
`comm.allreduce` interpreted per the spec's Collective contract as the
elementwise sum over all participants: sum the hit maps, sum the products
`value * hits`, then divide by the global hit count on every pixel with
global hits > 0 (other pixels keep the summed value). -/
def binned_map_strip_reduce (workers : List ((ℕ → ℚ) × (ℕ → ℕ))) :
    (ℕ → ℚ) × (ℕ → ℕ) :=
  let ghits : ℕ → ℕ := fun p => (workers.map (fun w => w.2 p)).sum
  let gsum : ℕ → ℚ := fun p => (workers.map (fun w => w.1 p * (w.2 p : ℚ))).sum
  (fun p => if 0 < ghits p then gsum p / (ghits p : ℚ) else gsum p, ghits)

/-- The samples of a stream that hit pixel `p`, in order (their signal
values). -/
def pixSamples (samples : List (ℚ × ℤ)) (p : ℕ) : List ℚ :=
  (samples.filter (fun s => s.2 = (p : ℤ))).map Prod.fst

/-- A pixel index in `[0, numpix)` is a valid numpy index addressing itself. -/
theorem npEffIndex_of_nonneg {n : ℕ} {i : ℤ} (h0 : 0 ≤ i) (h1 : i < (n : ℤ)) :
    npEffIndex n i = some i.toNat := by
  simp [npEffIndex, h0, h1]

/-- `pixSamples` of a cons whose head hits `p`. -/
theorem pixSamples_cons_eq (v : ℚ) (i : ℤ) (rest : List (ℚ × ℤ)) (p : ℕ)
    (h : i = (p : ℤ)) : pixSamples ((v, i) :: rest) p = v :: pixSamples rest p := by
  simp [pixSamples, List.filter_cons, h]

/-- `pixSamples` of a cons whose head misses `p`. -/
theorem pixSamples_cons_ne (v : ℚ) (i : ℤ) (rest : List (ℚ × ℤ)) (p : ℕ)
    (h : ¬i = (p : ℤ)) : pixSamples ((v, i) :: rest) p = pixSamples rest p := by
  simp [pixSamples, List.filter_cons, h]

/-- Folding the running-mean step over a sample stream adds, at every pixel
`p < n`, the sum of the signals hitting `p` to the running sum and the number
of samples hitting `p` to the hit count. -/
theorem foldl_stepB_apply (n : ℕ) (samples : List (ℚ × ℤ)) (p : ℕ) (hp : p < n) :
    ∀ st : (ℕ → ℚ) × (ℕ → ℕ),
      (samples.foldl (stepB n) st).1 p = st.1 p + (pixSamples samples p).sum ∧
      (samples.foldl (stepB n) st).2 p = st.2 p + (pixSamples samples p).length := by
  induction samples with
  | nil => intro st; simp [pixSamples]
  | cons s rest ih =>
    intro st
    obtain ⟨v, i⟩ := s
    rw [List.foldl_cons]
    rcases ih (stepB n st (v, i)) with ⟨ih1, ih2⟩
    by_cases hip : i = (p : ℤ)
    · subst hip
      have hrange : (0 ≤ (p : ℤ) ∧ (p : ℤ) < (n : ℤ)) := ⟨Int.ofNat_nonneg p, by exact_mod_cast hp⟩
      have hstep : stepB n st (v, (p : ℤ)) =
          (Function.update st.1 p (st.1 p + v), Function.update st.2 p (st.2 p + 1)) := by
        simp [stepB, hrange]
      rw [hstep] at ih1 ih2 ⊢
      rw [ih1, ih2, pixSamples_cons_eq v _ rest p rfl]
      simp only [Function.update_same, List.sum_cons, List.length_cons]
      constructor
      · ring
      · omega
    · have hstep : (stepB n st (v, i)).1 p = st.1 p ∧ (stepB n st (v, i)).2 p = st.2 p := by
        unfold stepB
        split
        · next hr =>
          have hne : i.toNat ≠ p := by
            intro h
            exact hip (by rw [← h, Int.toNat_of_nonneg hr.1])
          exact ⟨Function.update_noteq (Ne.symm hne) _ _, Function.update_noteq (Ne.symm hne) _ _⟩
        · exact ⟨rfl, rfl⟩
      rw [ih1, ih2, hstep.1, hstep.2, pixSamples_cons_ne v i rest p hip]
      exact ⟨rfl, rfl⟩

/-- The running-mean accumulator computes, per pixel, the sum and the count of
the samples hitting it. -/
theorem binnedAccum_apply (n : ℕ) (samples : List (ℚ × ℤ)) (p : ℕ) (hp : p < n) :
    (binnedAccum n samples).1 p = (pixSamples samples p).sum ∧
    (binnedAccum n samples).2 p = (pixSamples samples p).length := by
  have h := foldl_stepB_apply n samples p hp (fun _ => 0, fun _ => 0)
  simpa [binnedAccum] using h

/-- Value and hit maps of `binnedOfSamples`, characterised per pixel. -/
theorem binnedOfSamples_apply (n : ℕ) (samples : List (ℚ × ℤ)) (p : ℕ) (hp : p < n) :
    (binnedOfSamples n samples).2 p = (pixSamples samples p).length ∧
    (binnedOfSamples n samples).1 p =
      (if 0 < (pixSamples samples p).length then
        (pixSamples samples p).sum / ((pixSamples samples p).length : ℚ) else 0) := by
  rcases binnedAccum_apply n samples p hp with ⟨h1, h2⟩
  refine ⟨h2, ?_⟩
  simp [binnedOfSamples, binnedFinal, h1, h2]

/-- C2: for a call to `binned_map` with equal-length sequences, a positive
built-in-integer `numpix` and all pixel indices in `[0, numpix)`, the call
succeeds; at every pixel `p < numpix` the hit map counts exactly the samples
hitting `p`, the value map holds their mean when that count is positive, and
holds 0 when no sample hits `p`. -/
theorem binned_map_running_mean_correct (signal : List ℚ) (pixidx : List ℤ)
    (num : PyInt) (hlen : signal.length = pixidx.length) (hint : num.isInt = true)
    (hpos : 0 < num.val) (hin : ∀ i ∈ pixidx, 0 ≤ i ∧ i < num.val)
    (p : ℕ) (hp : (p : ℤ) < num.val) :
    (binned_map signal pixidx num).isOk = true ∧
    (binned_map signal pixidx num).hitMap p = (pixSamples (signal.zip pixidx) p).length ∧
    (0 < (pixSamples (signal.zip pixidx) p).length →
      (binned_map signal pixidx num).valueMap p =
        (pixSamples (signal.zip pixidx) p).sum /
          ((pixSamples (signal.zip pixidx) p).length : ℚ)) ∧
    ((pixSamples (signal.zip pixidx) p).length = 0 →
      (binned_map signal pixidx num).valueMap p = 0) := by
  have hcond : signal.length = pixidx.length ∧ num.isInt = true ∧ 0 < num.val :=
    ⟨hlen, hint, hpos⟩
  have hp' : p < num.val.toNat := by omega
  rcases binnedOfSamples_apply num.val.toNat (signal.zip pixidx) p hp' with ⟨h2, h1⟩
  refine ⟨?_, ?_, ?_, ?_⟩
  · simp [binned_map, hcond, BinnedOutcome.isOk]
  · simpa [binned_map, hcond, BinnedOutcome.hitMap] using h2
  · intro hpos'
    simp [binned_map, hcond, BinnedOutcome.valueMap, h1, hpos']
  · intro hzero
    simp [binned_map, hcond, BinnedOutcome.valueMap, h1, hzero]

/-- One step of the first-hit accumulation on an explicit state
(`mappixels`, `observed`), for samples whose index does not raise. -/
def nonoiseStep (n : ℕ) (st : (ℕ → ℚ) × (ℕ → Bool)) (s : ℚ × ℤ) :
    (ℕ → ℚ) × (ℕ → Bool) :=
  match npEffIndex n s.2 with
  | none => st
  | some j =>
    if st.2 j then st else (Function.update st.1 j s.1, Function.update st.2 j true)

/-- The first-hit accumulation as a total fold over the sample stream. -/
def nonoiseFold (n : ℕ) (samples : List (ℚ × ℤ)) (st : (ℕ → ℚ) × (ℕ → Bool)) :
    (ℕ → ℚ) × (ℕ → Bool) :=
  samples.foldl (nonoiseStep n) st

/-- When every sample carries a numpy-valid index, the `nonoise_map` loop
never raises and returns the map of the total fold. -/
theorem nonoiseLoop_eq_fold (n : ℕ) (samples : List (ℚ × ℤ))
    (hin : ∀ s ∈ samples, (npEffIndex n s.2).isSome) :
    ∀ (m : ℕ → ℚ) (obs : ℕ → Bool),
      nonoiseLoop n samples m obs = .ok (nonoiseFold n samples (m, obs)).1 := by
  induction samples with
  | nil => intro m obs; rfl
  | cons s rest ih =>
    intro m obs
    obtain ⟨v, i⟩ := s
    have hs := hin (v, i) (List.mem_cons_self _ _)
    have hrest : ∀ s ∈ rest, (npEffIndex n s.2).isSome :=
      fun s hsr => hin s (List.mem_cons_of_mem _ hsr)
    match hj : npEffIndex n i with
    | none => rw [hj] at hs; simp at hs
    | some j =>
      show (match npEffIndex n i with
        | none => NonoiseOutcome.indexFail m obs
        | some j =>
          if obs j then nonoiseLoop n rest m obs
          else nonoiseLoop n rest (Function.update m j v)
            (Function.update obs j true)) = _
      rw [hj]
      have hfold : nonoiseFold n ((v, i) :: rest) (m, obs) =
          nonoiseFold n rest (nonoiseStep n (m, obs) (v, i)) := rfl
      rw [hfold]
      show _ = NonoiseOutcome.ok
        (nonoiseFold n rest
          (match npEffIndex n i with
            | none => (m, obs)
            | some j =>
              if obs j then (m, obs)
              else (Function.update m j v, Function.update obs j true))).1
      rw [hj]
      by_cases ho : obs j
      · simp only [ho, if_true]
        exact ih hrest m obs
      · simp only [ho, if_false, Bool.false_eq_true]
        exact ih hrest _ _

/-- First-hit fold characterisation: at every pixel `p`, the final map holds
the old value if `p` was already observed, otherwise the value of the first
sample hitting `p` (or the old value if no sample hits `p`).  All sample
indices are assumed to lie in `[0, n)`. -/
theorem nonoiseFold_apply (n : ℕ) (samples : List (ℚ × ℤ))
    (hin : ∀ s ∈ samples, 0 ≤ s.2 ∧ s.2 < (n : ℤ)) (p : ℕ) :
    ∀ (m : ℕ → ℚ) (obs : ℕ → Bool),
      (nonoiseFold n samples (m, obs)).1 p =
        if obs p then m p
        else (((samples.find? (fun s => s.2 = (p : ℤ))).map Prod.fst).getD (m p)) := by
  induction samples with
  | nil =>
    intro m obs
    simp [nonoiseFold]
  | cons s rest ih =>
    intro m obs
    obtain ⟨v, i⟩ := s
    rcases hin (v, i) (List.mem_cons_self _ _) with ⟨h0, h1⟩
    have hrest : ∀ s ∈ rest, 0 ≤ s.2 ∧ s.2 < (n : ℤ) :=
      fun s hsr => hin s (List.mem_cons_of_mem _ hsr)
    have hstep : nonoiseFold n ((v, i) :: rest) (m, obs) =
        nonoiseFold n rest (nonoiseStep n (m, obs) (v, i)) := rfl
    rw [hstep]
    have hj : npEffIndex n i = some i.toNat := npEffIndex_of_nonneg h0 h1
    by_cases hip : i = (p : ℤ)
    · have htp : i.toNat = p := by omega
      have hfind : ((((v, i) :: rest).find? (fun s => s.2 = (p : ℤ))).map
          Prod.fst) = some v := by
        simp [List.find?_cons, hip]
      rw [hfind]
      by_cases ho : obs p
      · have hobs : obs i.toNat = true := by rw [htp]; exact ho
        have : nonoiseStep n (m, obs) (v, i) = (m, obs) := by
          simp [nonoiseStep, hj, hobs]
        rw [this, ih hrest m obs]
        simp [ho]
      · have hobs : obs i.toNat = false := by rw [htp]; simpa using ho
        have : nonoiseStep n (m, obs) (v, i) =
            (Function.update m p v, Function.update obs p true) := by
          rw [← htp]
          simp [nonoiseStep, hj, hobs]
        rw [this, ih hrest _ _]
        rw [if_neg ho]
        have hup : Function.update obs p true p = true := Function.update_same p true obs
        rw [if_pos hup, Function.update_same]
        rfl
    · have htp : i.toNat ≠ p := by omega
      have hfind : (((v, i) :: rest).find? (fun s => s.2 = (p : ℤ))) =
          rest.find? (fun s => s.2 = (p : ℤ)) := by
        simp [List.find?_cons, hip]
      rw [hfind]
      by_cases ho : obs i.toNat
      · have : nonoiseStep n (m, obs) (v, i) = (m, obs) := by
          simp [nonoiseStep, hj, ho]
        rw [this, ih hrest m obs]
      · have : nonoiseStep n (m, obs) (v, i) =
            (Function.update m i.toNat v, Function.update obs i.toNat true) := by
          simp [nonoiseStep, hj, ho]
        rw [this, ih hrest _ _]
        rw [Function.update_noteq (Ne.symm htp), Function.update_noteq (Ne.symm htp)]

/-- C3: for a call to `nonoise_map` with valid arguments (equal lengths,
positive built-in-integer `numpix`, indices in range), the call succeeds and
every pixel holds the signal value of the earliest sample (in arrival order)
whose pixel index matches it; later samples at an already-seen pixel are
ignored, and a pixel never hit holds 0.  The source produces no hit map for
this variant (`NonoiseOutcome.ok` carries only the value map). -/
theorem nonoise_map_first_hit (signal : List ℚ) (pixidx : List ℤ) (num : PyInt)
    (hlen : signal.length = pixidx.length) (hint : num.isInt = true)
    (hpos : 0 < num.val) (hin : ∀ i ∈ pixidx, 0 ≤ i ∧ i < num.val) (p : ℕ) :
    (nonoise_map signal pixidx num).isOk = true ∧
    (nonoise_map signal pixidx num).okMap p =
      ((((signal.zip pixidx).find? (fun s => s.2 = (p : ℤ))).map Prod.fst).getD 0) := by
  have hcond : signal.length = pixidx.length ∧ num.isInt = true ∧ 0 < num.val :=
    ⟨hlen, hint, hpos⟩
  have hin' : ∀ s ∈ signal.zip pixidx, 0 ≤ s.2 ∧ s.2 < ((num.val.toNat : ℕ) : ℤ) := by
    intro s hs
    rcases List.of_mem_zip hs with ⟨_, h2⟩
    rcases hin s.2 h2 with ⟨ha, hb⟩
    refine ⟨ha, ?_⟩
    rw [Int.toNat_of_nonneg (le_of_lt hpos)]
    exact hb
  have hsome : ∀ s ∈ signal.zip pixidx, (npEffIndex num.val.toNat s.2).isSome := by
    intro s hs
    rcases hin' s hs with ⟨ha, hb⟩
    rw [npEffIndex_of_nonneg ha hb]
    rfl
  have hloop := nonoiseLoop_eq_fold num.val.toNat (signal.zip pixidx) hsome
    (fun _ => 0) (fun _ => false)
  have happ := nonoiseFold_apply num.val.toNat (signal.zip pixidx) hin' p
    (fun _ => 0) (fun _ => false)
  constructor
  · simp [nonoise_map, hcond, hloop, NonoiseOutcome.isOk]
  · simp only [nonoise_map, hcond, and_self, if_true, hloop, NonoiseOutcome.okMap]
    simpa using happ

/-- `pixSamples` is permutation-invariant up to permutation. -/
theorem pixSamples_perm {l1 l2 : List (ℚ × ℤ)} (h : l1.Perm l2) (p : ℕ) :
    (pixSamples l1 p).Perm (pixSamples l2 p) :=
  (h.filter _).map _

/-- `pixSamples` distributes over concatenating the per-worker streams. -/
theorem pixSamples_flatten (parts : List (List (ℚ × ℤ))) (p : ℕ) :
    pixSamples parts.flatten p = (parts.map (fun w => pixSamples w p)).flatten := by
  induction parts with
  | nil => rfl
  | cons w rest ih =>
    simp only [List.flatten_cons, List.map_cons]
    rw [← ih]
    simp [pixSamples, List.filter_append]

/-- Multiplying a worker's reported mean by its hit count recovers the
worker's partial sum (also when the pixel was never hit, both sides being 0). -/
theorem binned_value_mul_hits (n : ℕ) (samples : List (ℚ × ℤ)) (p : ℕ)
    (hp : p < n) :
    (binnedOfSamples n samples).1 p * ((binnedOfSamples n samples).2 p : ℚ) =
      (pixSamples samples p).sum := by
  rcases binnedOfSamples_apply n samples p hp with ⟨h2, h1⟩
  rw [h1, h2]
  by_cases hl : 0 < (pixSamples samples p).length
  · rw [if_pos hl, div_mul_cancel₀]
    exact Nat.cast_ne_zero.mpr (by omega)
  · rw [if_neg hl, zero_mul]
    have hnil : pixSamples samples p = [] := List.length_eq_zero.mp (by omega)
    rw [hnil]
    rfl

/-- Hit map of the reduction, unfolded. -/
theorem binned_map_strip_reduce_hits (workers : List ((ℕ → ℚ) × (ℕ → ℕ)))
    (p : ℕ) :
    (binned_map_strip_reduce workers).2 p =
      (workers.map (fun w => w.2 p)).sum := rfl

/-- Value map of the reduction, unfolded. -/
theorem binned_map_strip_reduce_value (workers : List ((ℕ → ℚ) × (ℕ → ℕ)))
    (p : ℕ) :
    (binned_map_strip_reduce workers).1 p =
      if 0 < (workers.map (fun w => w.2 p)).sum then
        (workers.map (fun w => w.1 p * (w.2 p : ℚ))).sum /
          (Nat.cast ((workers.map (fun w => w.2 p)).sum) : ℚ)
      else (workers.map (fun w => w.1 p * (w.2 p : ℚ))).sum := rfl

/-- C1: for any sample set split across K workers (the union of the per-worker
streams is a permutation of the full stream, all pixel indices in range),
running the running-mean accumulator per worker and combining the
(ValueMap, HitMap) pairs with the reduction of `binned_map_strip` gives,
pixel by pixel, the same value map and hit map as running the accumulator
once over the full stream. -/
theorem binned_map_strip_reduction_equiv (n : ℕ) (parts : List (List (ℚ × ℤ)))
    (full : List (ℚ × ℤ)) (hsplit : full.Perm parts.flatten)
    (hin : ∀ s ∈ full, 0 ≤ s.2 ∧ s.2 < (n : ℤ)) (p : ℕ) (hp : p < n) :
    (binned_map_strip_reduce (parts.map (binnedOfSamples n))).1 p =
      (binnedOfSamples n full).1 p ∧
    (binned_map_strip_reduce (parts.map (binnedOfSamples n))).2 p =
      (binnedOfSamples n full).2 p := by
  have hperm : (pixSamples full p).Perm (pixSamples parts.flatten p) :=
    pixSamples_perm hsplit p
  have hHsum : ((parts.map (binnedOfSamples n)).map (fun w => w.2 p)).sum =
      (pixSamples full p).length := by
    rw [List.map_map, hperm.length_eq, pixSamples_flatten, List.length_flatten,
      List.map_map]
    congr 1
    refine List.map_congr_left ?_
    intro w _
    exact (binnedOfSamples_apply n w p hp).1
  have hWsum : ((parts.map (binnedOfSamples n)).map
      (fun w => w.1 p * (w.2 p : ℚ))).sum = (pixSamples full p).sum := by
    rw [List.map_map, hperm.sum_eq, pixSamples_flatten, List.sum_flatten,
      List.map_map]
    congr 1
    refine List.map_congr_left ?_
    intro w _
    exact binned_value_mul_hits n w p hp
  rcases binnedOfSamples_apply n full p hp with ⟨hfh, hfv⟩
  constructor
  · rw [binned_map_strip_reduce_value, hHsum, hWsum, hfv]
    by_cases hl : 0 < (pixSamples full p).length
    · rw [if_pos hl, if_pos hl]
    · rw [if_neg hl, if_neg hl]
      have hnil : pixSamples full p = [] := List.length_eq_zero.mp (by omega)
      rw [hnil]
      rfl
  · rw [binned_map_strip_reduce_hits, hHsum, hfh]

/-- If the prefix `good` of the stream has only numpy-valid indices and the
next sample's index is invalid, the `nonoise_map` loop raises `IndexError`
exactly when it reaches that sample, carrying the accumulation of `good`. -/
theorem nonoiseLoop_fail_after (n : ℕ) (v : ℚ) (i : ℤ) (rest : List (ℚ × ℤ))
    (hbad : npEffIndex n i = none) :
    ∀ good : List (ℚ × ℤ), (∀ s ∈ good, (npEffIndex n s.2).isSome) →
      ∀ (m : ℕ → ℚ) (obs : ℕ → Bool),
        nonoiseLoop n (good ++ (v, i) :: rest) m obs =
          .indexFail (nonoiseFold n good (m, obs)).1
            (nonoiseFold n good (m, obs)).2 := by
  intro good
  induction good with
  | nil =>
    intro _ m obs
    show (match npEffIndex n i with
      | none => NonoiseOutcome.indexFail m obs
      | some j =>
        if obs j then nonoiseLoop n rest m obs
        else nonoiseLoop n rest (Function.update m j v)
          (Function.update obs j true)) = _
    rw [hbad]
    rfl
  | cons s gt ih =>
    intro hgood m obs
    obtain ⟨v', i'⟩ := s
    have hs := hgood (v', i') (List.mem_cons_self _ _)
    have hgt : ∀ s ∈ gt, (npEffIndex n s.2).isSome :=
      fun s hsr => hgood s (List.mem_cons_of_mem _ hsr)
    match hj : npEffIndex n i' with
    | none => rw [hj] at hs; simp at hs
    | some j =>
      show (match npEffIndex n i' with
        | none => NonoiseOutcome.indexFail m obs
        | some j =>
          if obs j then nonoiseLoop n (gt ++ (v, i) :: rest) m obs
          else nonoiseLoop n (gt ++ (v, i) :: rest) (Function.update m j v')
            (Function.update obs j true)) = _
      rw [hj]
      have hfold : nonoiseFold n ((v', i') :: gt) (m, obs) =
          nonoiseFold n gt (nonoiseStep n (m, obs) (v', i')) := rfl
      rw [hfold]
      have hstepj : nonoiseStep n (m, obs) (v', i') =
          (if obs j then (m, obs)
           else (Function.update m j v', Function.update obs j true)) := by
        simp [nonoiseStep, hj]
      rw [hstepj]
      by_cases ho : obs j
      · simp only [ho, if_true]
        exact ih hgt m obs
      · simp only [ho, if_false, Bool.false_eq_true]
        exact ih hgt _ _

/-- C4 counterexample: calling `nonoise_map` with `signal = [1, 2]`,
`pixidx = [0, 5]`, `num_of_pixels = 2` (an out-of-range index 5 ≥ 2) does NOT
fail before any map mutation: the call raises a mid-loop `IndexError`, and at
the moment it is raised the map already holds the first sample's value 1 at
pixel 0 (not the initial 0).  This refutes the claim that an out-of-range
index fails with an `InvalidArgument` condition before any map mutation is
observable. -/
theorem nonoise_map_no_early_index_check :
    (nonoise_map [1, 2] [0, 5] ⟨2, true⟩).isIndexFail = true ∧
    (nonoise_map [1, 2] [0, 5] ⟨2, true⟩).stateAtFailure 0 = 1 := by
  decide

/-- C4 amended: the three `assert` statements (length mismatch, non-`int`
or non-positive `num_of_pixels`) do fail before any accumulation, in both
`nonoise_map` and `binned_map`; but an out-of-range pixel index is not
pre-validated: `nonoise_map` raises an `IndexError` only when the offending
sample is reached, after all preceding samples have already been accumulated
into the map. -/
theorem nonoise_binned_validation_amended :
    (∀ (signal : List ℚ) (pixidx : List ℤ) (num : PyInt),
      ¬(signal.length = pixidx.length ∧ num.isInt = true ∧ 0 < num.val) →
        nonoise_map signal pixidx num = .assertFail ∧
        binned_map signal pixidx num = .assertFail) ∧
    (∀ (signal : List ℚ) (pixidx : List ℤ) (num : PyInt)
      (good : List (ℚ × ℤ)) (v : ℚ) (i : ℤ) (rest : List (ℚ × ℤ)),
      signal.length = pixidx.length → num.isInt = true → 0 < num.val →
      signal.zip pixidx = good ++ (v, i) :: rest →
      (∀ s ∈ good, (npEffIndex num.val.toNat s.2).isSome) →
      npEffIndex num.val.toNat i = none →
      nonoise_map signal pixidx num =
        .indexFail
          (nonoiseFold num.val.toNat good (fun _ => 0, fun _ => false)).1
          (nonoiseFold num.val.toNat good (fun _ => 0, fun _ => false)).2) := by
  constructor
  · intro signal pixidx num hbad
    constructor
    · simp [nonoise_map, hbad]
    · simp [binned_map, hbad]
  · intro signal pixidx num good v i rest hlen hint hpos hzip hgood hbad
    have hcond : signal.length = pixidx.length ∧ num.isInt = true ∧
        0 < num.val := ⟨hlen, hint, hpos⟩
    simp only [nonoise_map, hcond, and_self, if_true]
    rw [hzip]
    exact nonoiseLoop_fail_after num.val.toNat v i rest hbad good hgood _ _

/-- C9: a call to `nonoise_map` or `binned_map` whose `num_of_pixels` holds a
positive value but is not an instance of the built-in `int` type (e.g. a
`numpy.int64`) fails with an assertion error before any accumulation, even
though the value satisfies the positive-integer precondition. -/
theorem maptools_reject_non_builtin_int (signal : List ℚ) (pixidx : List ℤ)
    (num : PyInt) (hpos : 0 < num.val) (hint : num.isInt = false) :
    nonoise_map signal pixidx num = .assertFail ∧
    binned_map signal pixidx num = .assertFail := by
  constructor
  · simp [nonoise_map, hint]
  · simp [binned_map, hint]

/-- Witness for `maptools_reject_non_builtin_int`: `num_of_pixels` like
`numpy.int64(5)` (value 5, not a built-in `int`). -/
theorem maptools_reject_non_builtin_int_witness :
    nonoise_map [1] [0] ⟨5, false⟩ = .assertFail ∧
    binned_map [1] [0] ⟨5, false⟩ = .assertFail :=
  maptools_reject_non_builtin_int [1] [0] ⟨5, false⟩ (by decide) (by decide)

/-- Numpy index normalisation: a negative index `-k` stands for cell `N - k`. -/
def normIdx (N : ℤ) (i : ℤ) : ℤ := if i < 0 then i + N else i

/-- An index in `[-n, n)` is numpy-valid. -/
theorem npEffIndex_isSome {n : ℕ} {i : ℤ} (h0 : -(n : ℤ) ≤ i) (h1 : i < (n : ℤ)) :
    (npEffIndex n i).isSome = true := by
  unfold npEffIndex
  by_cases hi : 0 ≤ i
  · rw [if_pos ⟨hi, h1⟩]; rfl
  · rw [if_neg (by omega), if_pos ⟨h0, by omega⟩]; rfl

/-- Normalising an index in `[-n, n)` does not change the addressed cell. -/
theorem npEffIndex_normIdx (n : ℕ) (i : ℤ) (h0 : -(n : ℤ) ≤ i)
    (h1 : i < (n : ℤ)) :
    npEffIndex n (normIdx (n : ℤ) i) = npEffIndex n i := by
  unfold normIdx
  by_cases hi : i < 0
  · rw [if_pos hi]
    unfold npEffIndex
    rw [if_pos (⟨by omega, by omega⟩ : 0 ≤ i + (n : ℤ) ∧ i + (n : ℤ) < (n : ℤ))]
    rw [if_neg (by omega : ¬(0 ≤ i ∧ i < (n : ℤ)))]
    rw [if_pos ⟨h0, hi⟩]
  · rw [if_neg hi]

/-- The `nonoise_map` loop treats an index stream and its normalisation
identically when all indices lie in `[-n, n)`. -/
theorem nonoiseLoop_norm (n : ℕ) (N : ℤ) (hN : N = (n : ℤ))
    (samples : List (ℚ × ℤ))
    (hin : ∀ s ∈ samples, -N ≤ s.2 ∧ s.2 < N) :
    ∀ (m : ℕ → ℚ) (obs : ℕ → Bool),
      nonoiseLoop n (samples.map (fun s => (s.1, normIdx N s.2))) m obs =
        nonoiseLoop n samples m obs := by
  subst hN
  induction samples with
  | nil => intro m obs; rfl
  | cons s rest ih =>
    intro m obs
    obtain ⟨v, i⟩ := s
    rcases hin (v, i) (List.mem_cons_self _ _) with ⟨h0, h1⟩
    have hrest : ∀ s ∈ rest, -((n : ℕ) : ℤ) ≤ s.2 ∧ s.2 < ((n : ℕ) : ℤ) :=
      fun s hsr => hin s (List.mem_cons_of_mem _ hsr)
    have heq : npEffIndex n (normIdx ((n : ℕ) : ℤ) i) = npEffIndex n i :=
      npEffIndex_normIdx n i h0 h1
    have hmap : ((v, i) :: rest).map
        (fun s : ℚ × ℤ => (s.1, normIdx ((n : ℕ) : ℤ) s.2)) =
        (v, normIdx ((n : ℕ) : ℤ) i) ::
          rest.map (fun s : ℚ × ℤ => (s.1, normIdx ((n : ℕ) : ℤ) s.2)) := rfl
    have hL : nonoiseLoop n ((v, normIdx ((n : ℕ) : ℤ) i) ::
        rest.map (fun s : ℚ × ℤ => (s.1, normIdx ((n : ℕ) : ℤ) s.2))) m obs =
        (match npEffIndex n (normIdx ((n : ℕ) : ℤ) i) with
          | none => NonoiseOutcome.indexFail m obs
          | some j =>
            if obs j then
              nonoiseLoop n
                (rest.map (fun s : ℚ × ℤ => (s.1, normIdx ((n : ℕ) : ℤ) s.2)))
                m obs
            else
              nonoiseLoop n
                (rest.map (fun s : ℚ × ℤ => (s.1, normIdx ((n : ℕ) : ℤ) s.2)))
                (Function.update m j v) (Function.update obs j true)) := rfl
    have hR : nonoiseLoop n ((v, i) :: rest) m obs =
        (match npEffIndex n i with
          | none => NonoiseOutcome.indexFail m obs
          | some j =>
            if obs j then nonoiseLoop n rest m obs
            else nonoiseLoop n rest (Function.update m j v)
              (Function.update obs j true)) := rfl
    rw [hmap, hL, heq, hR]
    cases hj : npEffIndex n i with
    | none => rfl
    | some j =>
      by_cases ho : obs j
      · simp only [ho, if_true]
        exact ih hrest m obs
      · simp only [ho, if_false, Bool.false_eq_true]
        exact ih hrest _ _

/-- C10: a call to `nonoise_map` whose pixel indices all lie in
`[-numpix, numpix)` — so possibly negative — completes without raising any
error, and behaves exactly as the call in which every negative index `-k` is
replaced by `numpix - k`: negative indices silently wrap instead of being
rejected as out of range. -/
theorem nonoise_map_negative_index_wraps (signal : List ℚ) (pixidx : List ℤ)
    (num : PyInt) (hlen : signal.length = pixidx.length)
    (hint : num.isInt = true) (hpos : 0 < num.val)
    (hin : ∀ i ∈ pixidx, -num.val ≤ i ∧ i < num.val) :
    (nonoise_map signal pixidx num).isOk = true ∧
    nonoise_map signal pixidx num =
      nonoise_map signal (pixidx.map (normIdx num.val)) num := by
  have hcond : signal.length = pixidx.length ∧ num.isInt = true ∧ 0 < num.val :=
    ⟨hlen, hint, hpos⟩
  have hcast : ((num.val.toNat : ℕ) : ℤ) = num.val :=
    Int.toNat_of_nonneg (le_of_lt hpos)
  have hin' : ∀ s ∈ signal.zip pixidx, -num.val ≤ s.2 ∧ s.2 < num.val := by
    intro s hs
    rcases List.of_mem_zip hs with ⟨_, h2⟩
    exact hin s.2 h2
  have hsome : ∀ s ∈ signal.zip pixidx,
      (npEffIndex num.val.toNat s.2).isSome := by
    intro s hs
    rcases hin' s hs with ⟨ha, hb⟩
    exact npEffIndex_isSome (by rw [hcast]; exact ha) (by rw [hcast]; exact hb)
  constructor
  · have hloop := nonoiseLoop_eq_fold num.val.toNat (signal.zip pixidx) hsome
      (fun _ => 0) (fun _ => false)
    simp [nonoise_map, hcond, hloop, NonoiseOutcome.isOk]
  · have hcond2 : signal.length = (pixidx.map (normIdx num.val)).length ∧
        num.isInt = true ∧ 0 < num.val := by
      rw [List.length_map]
      exact hcond
    show (if signal.length = pixidx.length ∧ num.isInt = true ∧ 0 < num.val then
        nonoiseLoop num.val.toNat (signal.zip pixidx)
          (fun _ => 0) (fun _ => false)
      else .assertFail) =
      (if signal.length = (pixidx.map (normIdx num.val)).length ∧
          num.isInt = true ∧ 0 < num.val then
        nonoiseLoop num.val.toNat (signal.zip (pixidx.map (normIdx num.val)))
          (fun _ => 0) (fun _ => false)
      else .assertFail)
    rw [if_pos hcond, if_pos hcond2]
    have hzip : signal.zip (pixidx.map (normIdx num.val)) =
        (signal.zip pixidx).map (fun s : ℚ × ℤ => (s.1, normIdx num.val s.2)) := by
      rw [List.zip_map_right]
      refine List.map_congr_left ?_
      intro s _
      rfl
    rw [hzip]
    exact (nonoiseLoop_norm num.val.toNat num.val hcast.symm (signal.zip pixidx)
      hin' (fun _ => 0) (fun _ => false)).symm

/-- Per-worker TOI data supplied by `toi_provider` (a `ToiProvider` is an
external collaborator; spec section 6): the four STRIP signal channels, the
polarization angles and the pixel indices. -/
structure ToiData where
  sig0 : List ℚ
  sig1 : List ℚ
  sig2 : List ℚ
  sig3 : List ℚ
  psi : List ℚ
  pix : List ℤ

/-- An MPI communicator: the `allreduce` capability used by
`binned_map_strip` (external; `binned_map_strip` only checks its presence
and calls `allreduce`). -/
structure Comm where
  allreduceQ : (ℕ → ℚ) → (ℕ → ℚ)
  allreduceN : (ℕ → ℕ) → (ℕ → ℕ)

/-- Modelled from the spec: `healpy.nside2npix` (external pixelization
collaborator), the Healpix pixel count 12·nside². -/
def nside2npix (nside : ℕ) : ℕ := 12 * nside * nside

/-- Elementwise sum of two equal-length numpy arrays. -/
def elemAdd (a b : List ℚ) : List ℚ := List.zipWith (· + ·) a b

/-- Modelled from the spec: `stripeline.polarization.rotate_qu` (module not
under src/) rotates (Q, U) pairs elementwise by the angles `psi`; the
per-sample rotation is the parameter `rot` (the source's `inverse=True`
flag baked in), applied elementwise per the spec's PolarizationRotator
contract. -/
def rotate_qu (rot : ℚ → ℚ → ℚ → ℚ × ℚ) (q_from u_from psi : List ℚ) :
    List ℚ × List ℚ :=
  (((q_from.zip u_from).zip psi).map (fun s => (rot s.1.1 s.1.2 s.2).1),
   ((q_from.zip u_from).zip psi).map (fun s => (rot s.1.1 s.1.2 s.2).2))

/-- The I-channel signal of `binned_map_strip`: `np.sum(signals, axis=0)`,
the elementwise sum of the four channels. -/
def strip_i_signal (toi : ToiData) : List ℚ :=
  elemAdd (elemAdd toi.sig0 toi.sig1) (elemAdd toi.sig2 toi.sig3)

/-- The celestial Q stream of `binned_map_strip`:
`rotate_qu(2*(s0+s1), 2*(s2+s3), psi, inverse=True)` first component. -/
def strip_q_cel (rot : ℚ → ℚ → ℚ → ℚ × ℚ) (toi : ToiData) : List ℚ :=
  (rotate_qu rot ((elemAdd toi.sig0 toi.sig1).map (fun x => 2 * x))
    ((elemAdd toi.sig2 toi.sig3).map (fun x => 2 * x)) toi.psi).1

/-- The celestial U stream of `binned_map_strip` (second component). -/
def strip_u_cel (rot : ℚ → ℚ → ℚ → ℚ × ℚ) (toi : ToiData) : List ℚ :=
  (rotate_qu rot ((elemAdd toi.sig0 toi.sig1).map (fun x => 2 * x))
    ((elemAdd toi.sig2 toi.sig3).map (fun x => 2 * x)) toi.psi).2

/-- `binned_map_strip(nside, toi_provider, comm)` from
src/stripeline/maptools.py lines 155-210: build the I/Q/U signal streams,
compute the three local maps with `binned_map` (the variable `local_hits` is
rebound at each call; the binding from the U call is the one in scope
afterwards), then either reduce across the MPI communicator (`comm` truthy)
or return the local maps as they are (`comm` absent).  `none` is returned
when one of the `binned_map` calls raises. -/
def binned_map_strip (rot : ℚ → ℚ → ℚ → ℚ × ℚ) (nside : ℕ) (toi : ToiData)
    (comm : Option Comm) :
    Option ((ℕ → ℚ) × (ℕ → ℚ) × (ℕ → ℚ) × (ℕ → ℕ)) :=
  match binned_map (strip_i_signal toi) toi.pix ⟨(nside2npix nside : ℤ), true⟩,
      binned_map (strip_q_cel rot toi) toi.pix ⟨(nside2npix nside : ℤ), true⟩,
      binned_map (strip_u_cel rot toi) toi.pix ⟨(nside2npix nside : ℤ), true⟩ with
  | .ok vi _, .ok vq _, .ok vu hu =>
    match comm with
    | some c =>
      let global_hits := c.allreduceN hu
      let global_i := c.allreduceQ (fun p => vi p * (hu p : ℚ))
      let global_q := c.allreduceQ (fun p => vq p * (hu p : ℚ))
      let global_u := c.allreduceQ (fun p => vu p * (hu p : ℚ))
      some
        (fun p => if 0 < global_hits p then global_i p / (global_hits p : ℚ)
          else global_i p,
         fun p => if 0 < global_hits p then global_q p / (global_hits p : ℚ)
          else global_q p,
         fun p => if 0 < global_hits p then global_u p / (global_hits p : ℚ)
          else global_u p,
         global_hits)
    | none => some (vi, vq, vu, hu)
  | _, _, _ => none

/-- C8: with no communicator (`comm=None`, a single worker),
`binned_map_strip` returns exactly the locally computed I, Q, U and hit maps
of the three `binned_map` calls — no reduction, no rescaling, no error. -/
theorem binned_map_strip_no_comm (rot : ℚ → ℚ → ℚ → ℚ × ℚ) (nside : ℕ)
    (toi : ToiData) (hnside : 0 < nside)
    (h0 : toi.sig0.length = toi.pix.length)
    (h1 : toi.sig1.length = toi.pix.length)
    (h2 : toi.sig2.length = toi.pix.length)
    (h3 : toi.sig3.length = toi.pix.length)
    (hpsi : toi.psi.length = toi.pix.length) :
    binned_map_strip rot nside toi none =
      some
        ((binned_map (strip_i_signal toi) toi.pix
            ⟨(nside2npix nside : ℤ), true⟩).valueMap,
         (binned_map (strip_q_cel rot toi) toi.pix
            ⟨(nside2npix nside : ℤ), true⟩).valueMap,
         (binned_map (strip_u_cel rot toi) toi.pix
            ⟨(nside2npix nside : ℤ), true⟩).valueMap,
         (binned_map (strip_u_cel rot toi) toi.pix
            ⟨(nside2npix nside : ℤ), true⟩).hitMap) := by
  have hpos : (0 : ℤ) < ((nside2npix nside : ℕ) : ℤ) := by
    have hx : 0 < nside2npix nside := by
      unfold nside2npix
      positivity
    exact_mod_cast hx
  have hleni : (strip_i_signal toi).length = toi.pix.length := by
    simp [strip_i_signal, elemAdd, h0, h1, h2, h3]
  have hlenq : (strip_q_cel rot toi).length = toi.pix.length := by
    simp [strip_q_cel, rotate_qu, elemAdd, h0, h1, h2, h3, hpsi]
  have hlenu : (strip_u_cel rot toi).length = toi.pix.length := by
    simp [strip_u_cel, rotate_qu, elemAdd, h0, h1, h2, h3, hpsi]
  have hoki : binned_map (strip_i_signal toi) toi.pix
      ⟨(nside2npix nside : ℤ), true⟩ =
      .ok (binnedOfSamples (nside2npix nside : ℤ).toNat
          ((strip_i_signal toi).zip toi.pix)).1
        (binnedOfSamples (nside2npix nside : ℤ).toNat
          ((strip_i_signal toi).zip toi.pix)).2 := by
    simp [binned_map, hleni, hpos]
  have hokq : binned_map (strip_q_cel rot toi) toi.pix
      ⟨(nside2npix nside : ℤ), true⟩ =
      .ok (binnedOfSamples (nside2npix nside : ℤ).toNat
          ((strip_q_cel rot toi).zip toi.pix)).1
        (binnedOfSamples (nside2npix nside : ℤ).toNat
          ((strip_q_cel rot toi).zip toi.pix)).2 := by
    simp [binned_map, hlenq, hpos]
  have hoku : binned_map (strip_u_cel rot toi) toi.pix
      ⟨(nside2npix nside : ℤ), true⟩ =
      .ok (binnedOfSamples (nside2npix nside : ℤ).toNat
          ((strip_u_cel rot toi).zip toi.pix)).1
        (binnedOfSamples (nside2npix nside : ℤ).toNat
          ((strip_u_cel rot toi).zip toi.pix)).2 := by
    simp [binned_map, hlenu, hpos]
  unfold binned_map_strip
  rw [hoki, hokq, hoku]
  rfl

/-- Accumulator state of the `ConditionMatrix` class
(src/stripeline/maptools.py lines 16-76): per pixel a flat 9-entry row of
`self.matr` (shape `(numpix, 9)`), reshaped row-major into the 3x3 normal
matrix by `to_map`.  Signals live in `ℝ` here because the design row involves
cosines and sines of the orientation angles. -/
structure ConditionMatrix (n : ℕ) where
  matr : Fin n → Fin 9 → ℝ

/-- `ConditionMatrix.__init__`: `self.matr = np.zeros((numpix, 9))`. -/
def ConditionMatrix.init (n : ℕ) : ConditionMatrix n := ⟨fun _ _ => 0⟩

/-- The per-sample design row `a = (1, cos 2ψ, sin 2ψ)` for a Stokes (I,Q,U)
fit (spec section 4.2). -/
noncomputable def designRow (ψ : ℝ) : Fin 3 → ℝ :=
  ![1, Real.cos (2 * ψ), Real.sin (2 * ψ)]

/-- The outer product `aᵀ a` of the design row, flattened row-major into the
9-entry storage used by `self.matr`. -/
noncomputable def outerFlat (ψ : ℝ) : Fin 9 → ℝ :=
  ![designRow ψ 0 * designRow ψ 0, designRow ψ 0 * designRow ψ 1,
    designRow ψ 0 * designRow ψ 2, designRow ψ 1 * designRow ψ 0,
    designRow ψ 1 * designRow ψ 1, designRow ψ 1 * designRow ψ 2,
    designRow ψ 2 * designRow ψ 0, designRow ψ 2 * designRow ψ 1,
    designRow ψ 2 * designRow ψ 2]

/-- Modelled from the spec: `stripeline._maptools.update_condmatr` (C
extension, not under src/), called by `ConditionMatrix.update`: for each
sample it builds the design row and adds the outer product `aᵀ a` into the
`NormalMatrixMap` entry of the addressed pixel. -/
noncomputable def ConditionMatrix.update {n : ℕ} (cm : ConditionMatrix n)
    (samples : List (Fin n × ℝ)) : ConditionMatrix n :=
  samples.foldl
    (fun acc s =>
      ⟨fun p k => if p = s.1 then acc.matr p k + outerFlat s.2 k
        else acc.matr p k⟩)
    cm

/-- Row-major `np.reshape(self.matr[cur_pixel], (3, 3))`. -/
def reshape3 (v : Fin 9 → ℝ) : Matrix (Fin 3) (Fin 3) ℝ :=
  Matrix.of (fun i j => v ⟨3 * i.val + j.val, by omega⟩)

/-- Singular values of a real 3x3 matrix: the square roots of the eigenvalues
of `Mᵀ M` — the semantics of the SVD underlying `numpy.linalg.cond`. -/
noncomputable def svals (M : Matrix (Fin 3) (Fin 3) ℝ) : Fin 3 → ℝ :=
  fun i =>
    Real.sqrt ((Matrix.posSemidef_conjTranspose_mul_self M).1.eigenvalues i)

/-- Largest singular value. -/
noncomputable def smax (M : Matrix (Fin 3) (Fin 3) ℝ) : ℝ :=
  Finset.univ.sup' ⟨0, Finset.mem_univ 0⟩ (svals M)

/-- Smallest singular value. -/
noncomputable def smin (M : Matrix (Fin 3) (Fin 3) ℝ) : ℝ :=
  Finset.univ.inf' ⟨0, Finset.mem_univ 0⟩ (svals M)

/-- `np.linalg.cond` with its default 2-norm: σmax / σmin.  On a singular
matrix numpy returns +inf, and the map entry `1.0 / cond` stored by `to_map`
is then 0; the real field's `x / 0 = 0` and `0⁻¹ = 0` conventions make the
composed entry below agree with that behavior. -/
noncomputable def np_linalg_cond (M : Matrix (Fin 3) (Fin 3) ℝ) : ℝ :=
  smax M / smin M

/-- `ConditionMatrix.to_map` (src/stripeline/maptools.py lines 59-76),
modelled as a state transformer: start from `cond_map = np.zeros(numpix)`,
and for every pixel of the seen mask `self.matr[:, 0] > 0` store
`1.0 / np.linalg.cond(np.reshape(self.matr[cur_pixel], (3, 3)))`.  The Python
body reads `self.matr` and writes only the fresh local `cond_map`, so the
state returned alongside the map is the input state. -/
noncomputable def ConditionMatrix.to_map {n : ℕ} (cm : ConditionMatrix n) :
    (Fin n → ℝ) × ConditionMatrix n :=
  (fun p =>
    if 0 < cm.matr p 0 then (np_linalg_cond (reshape3 (cm.matr p)))⁻¹ else 0,
   cm)

/-- Singular values are nonnegative. -/
theorem svals_nonneg (M : Matrix (Fin 3) (Fin 3) ℝ) (i : Fin 3) :
    0 ≤ svals M i := Real.sqrt_nonneg _

/-- The smallest singular value is nonnegative. -/
theorem smin_nonneg (M : Matrix (Fin 3) (Fin 3) ℝ) : 0 ≤ smin M :=
  Finset.le_inf' _ _ (fun i _ => svals_nonneg M i)

/-- The smallest singular value is at most the largest. -/
theorem smin_le_smax (M : Matrix (Fin 3) (Fin 3) ℝ) : smin M ≤ smax M :=
  le_trans (Finset.inf'_le _ (Finset.mem_univ 0))
    (Finset.le_sup' _ (Finset.mem_univ 0))

/-- A singular 3x3 matrix has a zero singular value, hence `smin = 0`. -/
theorem smin_eq_zero_of_det_eq_zero (M : Matrix (Fin 3) (Fin 3) ℝ)
    (hdet : M.det = 0) : smin M = 0 := by
  have h1 : (M.conjTranspose * M).det = 0 := by
    rw [Matrix.det_mul, Matrix.det_conjTranspose, hdet]
    simp
  have h2 := (Matrix.posSemidef_conjTranspose_mul_self M).1.det_eq_prod_eigenvalues
  rw [h1] at h2
  have h3 := h2.symm
  rw [Finset.prod_eq_zero_iff] at h3
  rcases h3 with ⟨i, _, hi⟩
  have hz : (Matrix.posSemidef_conjTranspose_mul_self M).1.eigenvalues i = 0 := by
    exact_mod_cast hi
  have hsv : svals M i = 0 := by simp [svals, hz]
  exact le_antisymm (hsv ▸ Finset.inf'_le _ (Finset.mem_univ i)) (smin_nonneg M)

/-- C5: for every `ConditionMatrix` accumulator state, every entry of the map
returned by `to_map` lies in `[0, 1]`, and the entry is exactly 0 for every
pixel whose hit count (the (0,0) entry of its normal matrix, i.e. the first
entry of its flat row) is 0. -/
theorem to_map_entry_bounds {n : ℕ} (cm : ConditionMatrix n) (p : Fin n) :
    0 ≤ (cm.to_map).1 p ∧ (cm.to_map).1 p ≤ 1 ∧
      (cm.matr p 0 = 0 → (cm.to_map).1 p = 0) := by
  have hval : (cm.to_map).1 p =
      if 0 < cm.matr p 0 then
        (np_linalg_cond (reshape3 (cm.matr p)))⁻¹ else 0 := rfl
  by_cases hmask : 0 < cm.matr p 0
  · rw [hval, if_pos hmask]
    set M := reshape3 (cm.matr p) with hM
    have hb0 : 0 ≤ smin M := smin_nonneg M
    have hba : smin M ≤ smax M := smin_le_smax M
    refine ⟨?_, ?_, ?_⟩
    · rcases eq_or_lt_of_le hb0 with hz | hpos
      · rw [np_linalg_cond, ← hz, div_zero, inv_zero]
      · have hcond : 0 < np_linalg_cond M := by
          rw [np_linalg_cond]
          exact div_pos (lt_of_lt_of_le hpos hba) hpos
        exact le_of_lt (inv_pos.mpr hcond)
    · rcases eq_or_lt_of_le hb0 with hz | hpos
      · rw [np_linalg_cond, ← hz, div_zero, inv_zero]
        exact zero_le_one
      · have hone : 1 ≤ np_linalg_cond M := by
          rw [np_linalg_cond]
          exact (one_le_div hpos).mpr hba
        calc (np_linalg_cond M)⁻¹ ≤ 1⁻¹ := by
              exact inv_anti₀ one_pos hone
          _ = 1 := inv_one
    · intro h0
      exact absurd h0 (ne_of_gt hmask)
  · rw [hval, if_neg hmask]
    exact ⟨le_refl 0, zero_le_one, fun _ => rfl⟩

/-- The reshaped accumulation of a single repeated design row is the scaled
outer product matrix. -/
theorem reshape3_scaled_outer (c ψ : ℝ) :
    reshape3 (fun k => c * outerFlat ψ k) =
      Matrix.of (fun i j => c * (designRow ψ i * designRow ψ j)) := by
  ext i j
  fin_cases i <;> fin_cases j <;> rfl

/-- A scaled outer product of a single row is singular (3x3, rank at most 1). -/
theorem det_scaled_outer (c ψ : ℝ) :
    (reshape3 (fun k => c * outerFlat ψ k)).det = 0 := by
  rw [reshape3_scaled_outer, Matrix.det_fin_three]
  simp only [Matrix.of_apply]
  ring

/-- C6: a pixel whose normal matrix is a scaled outer product of a single
design row — as happens when the pixel is observed only at one repeated
orientation angle ψ, hit `c` times — gets ConditionMap value exactly 0 from
`to_map`.  In this real-valued model `to_map` is total (no exception) and 0
is an ordinary real number, neither NaN nor infinite; the numeric degeneracy
never fails the map computation. -/
theorem to_map_degenerate_pixel {n : ℕ} (cm : ConditionMatrix n) (p : Fin n)
    (c ψ : ℝ) (hmat : cm.matr p = fun k => c * outerFlat ψ k) :
    (cm.to_map).1 p = 0 := by
  have hval : (cm.to_map).1 p =
      if 0 < cm.matr p 0 then
        (np_linalg_cond (reshape3 (cm.matr p)))⁻¹ else 0 := rfl
  by_cases hmask : 0 < cm.matr p 0
  · rw [hval, if_pos hmask, hmat]
    have hdet : (reshape3 (fun k => c * outerFlat ψ k)).det = 0 :=
      det_scaled_outer c ψ
    have hmin : smin (reshape3 (fun k => c * outerFlat ψ k)) = 0 :=
      smin_eq_zero_of_det_eq_zero _ hdet
    rw [np_linalg_cond, hmin, div_zero, inv_zero]
  · rw [hval, if_neg hmask]

/-- C7: `to_map` is a pure query: it leaves the accumulator state unchanged,
calling it twice without intervening updates returns the identical map, and
updating after a query gives the same map as updating the original
accumulator — every call reflects the accumulator's current totals. -/
theorem to_map_idempotent_pure {n : ℕ} (cm : ConditionMatrix n) :
    (cm.to_map).2 = cm ∧
    ((cm.to_map).2.to_map).1 = (cm.to_map).1 ∧
    (∀ samples : List (Fin n × ℝ),
      (((cm.to_map).2.update samples).to_map).1 =
        ((cm.update samples).to_map).1) :=
  ⟨rfl, rfl, fun _ => rfl⟩

/-- Witness for `binned_map_strip_reduction_equiv`: the spec's concrete
instance — signal [1,2,3,4], pixels [0,0,1,1], worker A = {1,2} at pixel 0
and worker B = {3,4} at pixel 1 — combines to the map [3/2, 7/2] with hits
[2, 2], equal to the single-pass result. -/
theorem binned_map_strip_reduction_equiv_witness :
    ((binned_map_strip_reduce
        ([[((1 : ℚ), (0 : ℤ)), (2, 0)], [(3, 1), (4, 1)]].map
          (binnedOfSamples 2))).1 0 =
      (binnedOfSamples 2 [((1 : ℚ), (0 : ℤ)), (2, 0), (3, 1), (4, 1)]).1 0) ∧
    ((binned_map_strip_reduce
        ([[((1 : ℚ), (0 : ℤ)), (2, 0)], [(3, 1), (4, 1)]].map
          (binnedOfSamples 2))).1 1 =
      (binnedOfSamples 2 [((1 : ℚ), (0 : ℤ)), (2, 0), (3, 1), (4, 1)]).1 1) ∧
    ((binned_map_strip_reduce
        ([[((1 : ℚ), (0 : ℤ)), (2, 0)], [(3, 1), (4, 1)]].map
          (binnedOfSamples 2))).2 0 =
      (binnedOfSamples 2 [((1 : ℚ), (0 : ℤ)), (2, 0), (3, 1), (4, 1)]).2 0) ∧
    ((binned_map_strip_reduce
        ([[((1 : ℚ), (0 : ℤ)), (2, 0)], [(3, 1), (4, 1)]].map
          (binnedOfSamples 2))).2 1 =
      (binnedOfSamples 2 [((1 : ℚ), (0 : ℤ)), (2, 0), (3, 1), (4, 1)]).2 1) ∧
    ((binned_map_strip_reduce
        ([[((1 : ℚ), (0 : ℤ)), (2, 0)], [(3, 1), (4, 1)]].map
          (binnedOfSamples 2))).1 0 = 3 / 2) ∧
    ((binned_map_strip_reduce
        ([[((1 : ℚ), (0 : ℤ)), (2, 0)], [(3, 1), (4, 1)]].map
          (binnedOfSamples 2))).1 1 = 7 / 2) ∧
    ((binned_map_strip_reduce
        ([[((1 : ℚ), (0 : ℤ)), (2, 0)], [(3, 1), (4, 1)]].map
          (binnedOfSamples 2))).2 0 = 2) ∧
    ((binned_map_strip_reduce
        ([[((1 : ℚ), (0 : ℤ)), (2, 0)], [(3, 1), (4, 1)]].map
          (binnedOfSamples 2))).2 1 = 2) := by
  have h0 := binned_map_strip_reduction_equiv 2
    [[((1 : ℚ), (0 : ℤ)), (2, 0)], [(3, 1), (4, 1)]]
    [((1 : ℚ), (0 : ℤ)), (2, 0), (3, 1), (4, 1)]
    (List.Perm.refl _) (by decide) 0 (by decide)
  have h1 := binned_map_strip_reduction_equiv 2
    [[((1 : ℚ), (0 : ℤ)), (2, 0)], [(3, 1), (4, 1)]]
    [((1 : ℚ), (0 : ℤ)), (2, 0), (3, 1), (4, 1)]
    (List.Perm.refl _) (by decide) 1 (by decide)
  refine ⟨h0.1, h1.1, h0.2, h1.2, ?_, ?_, ?_, ?_⟩
  · norm_num [binned_map_strip_reduce, binnedOfSamples, binnedAccum,
      binnedFinal, stepB, List.foldl, Function.update]
  · norm_num [binned_map_strip_reduce, binnedOfSamples, binnedAccum,
      binnedFinal, stepB, List.foldl, Function.update]
  · decide
  · decide

/-- Witness for `binned_map_running_mean_correct`: signal [1,2,3] on pixels
[0,0,1] with numpix 2 succeeds; pixel 0 has 2 hits and mean 3/2. -/
theorem binned_map_running_mean_correct_witness :
    (binned_map [1, 2, 3] [0, 0, 1] ⟨2, true⟩).isOk = true ∧
    (binned_map [1, 2, 3] [0, 0, 1] ⟨2, true⟩).hitMap 0 = 2 ∧
    (binned_map [1, 2, 3] [0, 0, 1] ⟨2, true⟩).valueMap 0 = 3 / 2 := by
  have h := binned_map_running_mean_correct [1, 2, 3] [0, 0, 1] ⟨2, true⟩
    (by decide) (by decide) (by decide) (by decide) 0 (by decide)
  refine ⟨h.1, ?_, ?_⟩
  · rw [h.2.1]
    decide
  · have hv := h.2.2.1 (by decide)
    rw [hv]
    norm_num [pixSamples, List.filter]

/-- Witness for `nonoise_map_first_hit`: two samples 5 then 7 at pixel 0;
the map keeps the first value 5. -/
theorem nonoise_map_first_hit_witness :
    (nonoise_map [5, 7] [0, 0] ⟨1, true⟩).isOk = true ∧
    (nonoise_map [5, 7] [0, 0] ⟨1, true⟩).okMap 0 = 5 := by
  have h := nonoise_map_first_hit [5, 7] [0, 0] ⟨1, true⟩
    (by decide) (by decide) (by decide) (by decide) 0
  refine ⟨h.1, ?_⟩
  rw [h.2]
  decide

/-- Witness for `nonoise_binned_validation_amended`: numpix 0 fails the
asserts in both functions; and with signal [1,2], pixidx [0,5], numpix 2 the
index error arrives only after sample (1, 0) was accumulated. -/
theorem nonoise_binned_validation_amended_witness :
    (nonoise_map [1] [0] ⟨0, true⟩ = .assertFail ∧
      binned_map [1] [0] ⟨0, true⟩ = .assertFail) ∧
    nonoise_map [1, 2] [0, 5] ⟨2, true⟩ =
      .indexFail
        (nonoiseFold 2 [((1 : ℚ), (0 : ℤ))] (fun _ => 0, fun _ => false)).1
        (nonoiseFold 2 [((1 : ℚ), (0 : ℤ))] (fun _ => 0, fun _ => false)).2 :=
  ⟨nonoise_binned_validation_amended.1 [1] [0] ⟨0, true⟩ (by decide),
   nonoise_binned_validation_amended.2 [1, 2] [0, 5] ⟨2, true⟩
     [((1 : ℚ), (0 : ℤ))] 2 5 [] (by decide) (by decide) (by decide)
     (by decide) (by decide) (by decide)⟩

/-- Witness for `nonoise_map_negative_index_wraps`: numpix 3, index -1; the
call succeeds, agrees with the call on the wrapped index 2, and stores 7 at
pixel 2. -/
theorem nonoise_map_negative_index_wraps_witness :
    ((nonoise_map [7] [-1] ⟨3, true⟩).isOk = true ∧
      nonoise_map [7] [-1] ⟨3, true⟩ =
        nonoise_map [7] ([-1].map (normIdx (3 : ℤ))) ⟨3, true⟩) ∧
    (nonoise_map [7] [-1] ⟨3, true⟩).okMap 2 = 7 :=
  ⟨nonoise_map_negative_index_wraps [7] [-1] ⟨3, true⟩
      (by decide) (by decide) (by decide) (by decide),
   by decide⟩

/-- Witness for `binned_map_strip_no_comm` at nside 1 with one sample. -/
theorem binned_map_strip_no_comm_witness :
    binned_map_strip (fun q u _ => (q, u)) 1
      (ToiData.mk [1] [1] [1] [1] [0] [0]) none =
      some
        ((binned_map (strip_i_signal (ToiData.mk [1] [1] [1] [1] [0] [0]))
            [0] ⟨(nside2npix 1 : ℤ), true⟩).valueMap,
         (binned_map
            (strip_q_cel (fun q u _ => (q, u)) (ToiData.mk [1] [1] [1] [1] [0] [0]))
            [0] ⟨(nside2npix 1 : ℤ), true⟩).valueMap,
         (binned_map
            (strip_u_cel (fun q u _ => (q, u)) (ToiData.mk [1] [1] [1] [1] [0] [0]))
            [0] ⟨(nside2npix 1 : ℤ), true⟩).valueMap,
         (binned_map
            (strip_u_cel (fun q u _ => (q, u)) (ToiData.mk [1] [1] [1] [1] [0] [0]))
            [0] ⟨(nside2npix 1 : ℤ), true⟩).hitMap) :=
  binned_map_strip_no_comm (fun q u _ => (q, u)) 1
    (ToiData.mk [1] [1] [1] [1] [0] [0]) (by decide) rfl rfl rfl rfl rfl

/-- Witness for `to_map_entry_bounds` at the freshly initialised accumulator
(hit count of pixel 0 is 0, so the entry is 0, inside [0, 1]). -/
theorem to_map_entry_bounds_witness :
    0 ≤ ((ConditionMatrix.init 1).to_map).1 0 ∧
    ((ConditionMatrix.init 1).to_map).1 0 ≤ 1 ∧
    ((ConditionMatrix.init 1).to_map).1 0 = 0 :=
  ⟨(to_map_entry_bounds (ConditionMatrix.init 1) 0).1,
   (to_map_entry_bounds (ConditionMatrix.init 1) 0).2.1,
   (to_map_entry_bounds (ConditionMatrix.init 1) 0).2.2 rfl⟩

/-- Witness for `to_map_degenerate_pixel`: one sample at angle 0 on pixel 0
(a rank-1 normal matrix) gives ConditionMap entry 0. -/
theorem to_map_degenerate_pixel_witness :
    (((ConditionMatrix.init 1).update [(0, 0)]).to_map).1 0 = 0 :=
  to_map_degenerate_pixel ((ConditionMatrix.init 1).update [(0, 0)]) 0 1 0
    (by
      funext k
      simp [ConditionMatrix.update, ConditionMatrix.init, List.foldl])
